import Mathlib

/-!
Shallow embedding of the VexCL core (`vexcl/types.hpp` / `vector.hpp`):
the multi-device vector, its partitioner, host/device data transfer, the
expression templates with their kernel-name scheme, and the per-expression
compiled-kernel cache.

Conventions of the embedding:
* `size_t` values are `Nat`; `double` values are idealised as `ℚ`.
* OpenCL buffers are element lists; a command queue is abstracted to its
  index, so a vector keeps only the queue count `nq`.
* Asynchronous transfers are recorded as the list of shard indices on
  which a transfer was enqueued, in enqueue order; the blocking wait loop
  is recorded as the list of shard indices whose event is waited on.
* The static `exdata<Expr>` maps are modelled as an explicit cache value
  threaded through the assignment; `cl_context` keys are `Nat`.
-/

set_option linter.unusedVariables false

namespace vex

/-- Modelled from the spec: `round_to_alignment` (`alignup`, declared in
`vexcl/util.hpp`, which is not among the given sources); it rounds a size
up to the next multiple of the fixed alignment granularity 16. -/
def alignup (n : Nat) : Nat :=
  if n % 16 = 0 then n else n - n % 16 + 16

/-- Partial sums of the measured device weights: `cumw w i` is the value
`cumsum[i]` built by `partition_by_vector_perf` (`cumsum[0] = 0`, then one
`device_vector_perf` weight per queue, accumulated in queue order). -/
def cumw (w : List ℚ) (i : Nat) : ℚ :=
  (w.take i).sum

/-- The table entry `partition_by_vector_perf` computes for device `d`:
`std::min(n, alignup(n * cumsum[d + 1] / cumsum.back()))`, with the
implicit `double → size_t` conversion of `alignup`'s argument modelled as
`Int.toNat ∘ Int.floor`. -/
def partEntry (n : Nat) (w : List ℚ) (d : Nat) : Nat :=
  min n (alignup (⌊(n : ℚ) * cumw w (d + 1) / cumw w w.length⌋).toNat)

/-- `partition_by_vector_perf(n, queue)`.  The bandwidth probe
`device_vector_perf` is abstracted as the list `w` of per-queue weights
(the probe returns `1 / elapsed`, cached per device); the `double`
arithmetic is idealised over `ℚ`. -/
def partition_by_vector_perf (n : Nat) (w : List ℚ) : List Nat :=
  let part0 : List Nat := List.replicate (w.length + 1) 0
  let part1 :=
    if 1 < w.length then
      (List.range w.length).foldl (fun part d => part.set (d + 1) (partEntry n w d)) part0
    else part0
  part1.set w.length n

/-- Effect of an `enqueueWriteBuffer`/`enqueueCopyBuffer` on a buffer:
overwrite `src.length` elements of `l` starting at element offset `off`. -/
def setSlice {α : Type} (l : List α) (off : Nat) (src : List α) : List α :=
  l.take off ++ src ++ l.drop (off + src.length)

/-- Device vector `vex::vector<T>`: the command-queue list is abstracted
to its length `nq`; `part` is the partition table (`std::vector<size_t>`)
and `buf` holds each shard's buffer contents. -/
structure vector (α : Type) where
  nq : Nat
  part : List Nat
  buf : List (List α)

/-- `vector::size`: `part.empty() ? 0 : part.back()`. -/
def vector.size {α : Type} (v : vector α) : Nat :=
  v.part.getLastD 0

/-- `vector::nparts`: the queue count. -/
def vector.nparts {α : Type} (v : vector α) : Nat :=
  v.nq

/-- `vector::part_size(d)`: `part[d + 1] - part[d]`. -/
def vector.part_size {α : Type} (v : vector α) (d : Nat) : Nat :=
  v.part.getD (d + 1) 0 - v.part.getD d 0

/-- The class invariant of `vex::vector`: the table has one entry per
queue plus one, starts at `0`, is adjacent-monotone, and each shard's
buffer holds exactly its partition range. -/
def vector.wf {α : Type} (v : vector α) : Prop :=
  v.part.length = v.nq + 1 ∧
  v.buf.length = v.nq ∧
  v.part.getD 0 0 = 0 ∧
  (∀ d, d < v.nq → v.part.getD d 0 ≤ v.part.getD (d + 1) 0) ∧
  (∀ d, d < v.nq → (v.buf.getD d []).length = v.part.getD (d + 1) 0 - v.part.getD d 0)

/-- The shard indices whose intersection of `[offset, offset + size)` with
`[part[d], part[d + 1])` is non-empty; these are exactly the iterations of
the transfer loops of `write_data`/`read_data` that enqueue a transfer,
and (for `blocking`) the events the wait loop waits on. -/
def transfers (part : List Nat) (nq offset size : Nat) : List Nat :=
  (List.range nq).filter fun d =>
    decide (max offset (part.getD d 0) < min (offset + size) (part.getD (d + 1) 0))

/-- `vector::write_data(offset, size, hostptr, blocking)`.  Returns the
updated vector, the shard indices on which a transfer was enqueued (in
order), and the shard indices whose event the blocking loop waits on. -/
def vector.write_data {α : Type} (v : vector α) (offset size : Nat)
    (hostptr : List α) (blocking : Bool) : vector α × List Nat × List Nat :=
  if size = 0 then (v, [], [])
  else
    let r := (List.range v.nq).foldl
      (fun (st : List (List α) × List Nat) d =>
        let start := max offset (v.part.getD d 0)
        let stop := min (offset + size) (v.part.getD (d + 1) 0)
        if stop ≤ start then st
        else
          (st.1.set d (setSlice (st.1.getD d []) (start - v.part.getD d 0)
              ((hostptr.drop (start - offset)).take (stop - start))),
           st.2 ++ [d]))
      (v.buf, [])
    ({ v with buf := r.1 }, r.2, if blocking then transfers v.part v.nq offset size else [])

/-- `vector::read_data(offset, size, hostptr, blocking)`.  Returns the
host buffer contents after the reads, the shard indices on which a
transfer was enqueued, and the shard indices waited on. -/
def vector.read_data {α : Type} (v : vector α) (offset size : Nat)
    (hostptr : List α) (blocking : Bool) : List α × List Nat × List Nat :=
  if size = 0 then (hostptr, [], [])
  else
    let r := (List.range v.nq).foldl
      (fun (st : List α × List Nat) d =>
        let start := max offset (v.part.getD d 0)
        let stop := min (offset + size) (v.part.getD (d + 1) 0)
        if stop ≤ start then st
        else
          (setSlice st.1 (start - offset)
              (((v.buf.getD d []).drop (start - v.part.getD d 0)).take (stop - start)),
           st.2 ++ [d]))
      (hostptr, [])
    (r.1, r.2, if blocking then transfers v.part v.nq offset size else [])

/-- `vector::operator=(const vector &x)`: the `&x != this` identity test
is the flag `self`.  For each shard of non-zero size one
`enqueueCopyBuffer(x.buf[d], buf[d], 0, 0, psize * sizeof(T))` is issued;
the returned list records those shard indices. -/
def vector.copyAssign {α : Type} (dst : vector α) (x : vector α) (self : Bool) :
    vector α × List Nat :=
  if self then (dst, [])
  else
    let r := (List.range dst.nq).foldl
      (fun (st : List (List α) × List Nat) d =>
        let psize := dst.part.getD (d + 1) 0 - dst.part.getD d 0
        if psize = 0 then st
        else
          (st.1.set d (setSlice (st.1.getD d []) 0 ((x.buf.getD d []).take psize)),
           st.2 ++ [d]))
      (dst.buf, [])
    ({ dst with buf := r.1 }, r.2)

/-- The shard-search loop of `vector::operator[]`:
`uint d = 0; while(index >= part[d + 1] && d < nparts()) d++;`.
`fuel` bounds the iteration count; `nq + 1` steps always suffice because
the loop stops as soon as `d` reaches `nparts()`. -/
def subscriptLoop (part : List Nat) (np index : Nat) : Nat → Nat → Nat
  | 0, d => d
  | fuel + 1, d =>
      if part.getD (d + 1) 0 ≤ index ∧ d < np then
        subscriptLoop part np index fuel (d + 1)
      else d

/-- `vector::operator[](index)`: the shard index `d` found by the search
loop together with the local buffer offset `index - part[d]` passed to
the `element` proxy. -/
def vector.subscript {α : Type} (v : vector α) (index : Nat) : Nat × Nat :=
  let d := subscriptLoop v.part v.nq index (v.nq + 1) 0
  (d, index - v.part.getD d 0)

/-- Shape of an expression tree: the cache/naming identity, independent of
the data a node carries.  `node` keeps the operator character of
`BinaryExpression<LHS, OP, RHS>`. -/
inductive EShape where
  | vec : EShape
  | scalar : EShape
  | node : Char → EShape → EShape → EShape
deriving DecidableEq

/-- An expression value: a device vector leaf, an arithmetic scalar leaf
(wrapped by `KernelGenerator<T>` for arithmetic `T`), or a
`BinaryExpression<LHS, OP, RHS>` node. -/
inductive VExpr where
  | vecLeaf : vector ℚ → VExpr
  | scalarLeaf : ℚ → VExpr
  | binop : Char → VExpr → VExpr → VExpr

/-- The shape of an expression value. -/
def VExpr.shape : VExpr → EShape
  | .vecLeaf _ => .vec
  | .scalarLeaf _ => .scalar
  | .binop op l r => .node op l.shape r.shape

/-- `kernel_name()`: `vector` leaves yield `"v"`, arithmetic scalars yield
`"c"` (`KernelGenerator<arithmetic>::kernel_name`), and
`BinaryExpression::kernel_name` prefixes the Polish-notation token of its
operator, throwing (`none`) on any operator other than `+ - * /`. -/
def VExpr.kernel_name : VExpr → Option String
  | .vecLeaf _ => some "v"
  | .scalarLeaf _ => some "c"
  | .binop op l r =>
      if op = '+' then (kernel_name l).bind fun a => (kernel_name r).map fun b => "p" ++ a ++ b
      else if op = '-' then (kernel_name l).bind fun a => (kernel_name r).map fun b => "m" ++ a ++ b
      else if op = '*' then (kernel_name l).bind fun a => (kernel_name r).map fun b => "t" ++ a ++ b
      else if op = '/' then (kernel_name l).bind fun a => (kernel_name r).map fun b => "d" ++ a ++ b
      else none

/-- The Polish-notation token of a binary operator character, `none` for
an unsupported operator. -/
def opTok (op : Char) : Option Char :=
  if op = '+' then some 'p'
  else if op = '-' then some 'm'
  else if op = '*' then some 't'
  else if op = '/' then some 'd'
  else none

/-- Character-level kernel name of a shape (specification companion of
`VExpr.kernel_name`, used to reason about name collisions). -/
def shapeTok : EShape → Option (List Char)
  | .vec => some ['v']
  | .scalar => some ['c']
  | .node op l r =>
      match opTok op, shapeTok l, shapeTok r with
      | some c, some a, some b => some (c :: (a ++ b))
      | _, _, _ => none

/-- `part_size(dev)` of an expression node:
`BinaryExpression::part_size` takes the `max` of its operands,
`vector::part_size` reports the true partition size, and
`KernelGenerator<arithmetic>::part_size` reports `0`. -/
def VExpr.part_size : VExpr → Nat → Nat
  | .vecLeaf v, d => v.part_size d
  | .scalarLeaf _, _ => 0
  | .binop _ l r, d => max (l.part_size d) (r.part_size d)

/-- The scalar operation the generated kernel body `(l OP r)` performs on
one element. -/
def applyOp (op : Char) (a b : ℚ) : ℚ :=
  if op = '+' then a + b
  else if op = '-' then a - b
  else if op = '*' then a * b
  else if op = '/' then a / b
  else 0

/-- Value of an expression at device `d`, local element index `i`: a
vector leaf reads its shard buffer (`name[i]` in the kernel body), a
scalar leaf is broadcast, a binary node applies its operator. -/
def VExpr.evalAt : VExpr → Nat → Nat → ℚ
  | .vecLeaf w, d, i => (w.buf.getD d []).getD i 0
  | .scalarLeaf c, _, _ => c
  | .binop op l r, d, i => applyOp op (l.evalAt d i) (r.evalAt d i)

/-- Denotation of `vector::operator=(const Expr&)` on the buffer
contents: for every shard of non-zero size the generated kernel writes
`res[i] = <expression>` for each local index `i` below the shard size;
shards of zero size launch no kernel. -/
def vector.assignExpr (v : vector ℚ) (e : VExpr) : vector ℚ :=
  { v with
    buf := (List.range v.nq).map fun d =>
      if v.part.getD (d + 1) 0 - v.part.getD d 0 = 0 then v.buf.getD d []
      else (List.range (v.part.getD (d + 1) 0 - v.part.getD d 0)).map fun i => e.evalAt d i }

/-- `vector::operator+=(expr)`: `return *this = *this + expr;`. -/
def vector.addAssign (v : vector ℚ) (e : VExpr) : vector ℚ :=
  v.assignExpr (VExpr.binop '+' (VExpr.vecLeaf v) e)

/-- `vector::operator-=(expr)`: `return *this = *this - expr;`. -/
def vector.subAssign (v : vector ℚ) (e : VExpr) : vector ℚ :=
  v.assignExpr (VExpr.binop '-' (VExpr.vecLeaf v) e)

/-- `vector::operator*=(expr)`: `return *this = *this * expr;`. -/
def vector.mulAssign (v : vector ℚ) (e : VExpr) : vector ℚ :=
  v.assignExpr (VExpr.binop '*' (VExpr.vecLeaf v) e)

/-- `vector::operator/=(expr)`: `return *this = *this / expr;`. -/
def vector.divAssign (v : vector ℚ) (e : VExpr) : vector ℚ :=
  v.assignExpr (VExpr.binop '/' (VExpr.vecLeaf v) e)

/-- Specification-side accumulation (spec §4.3: accumulation operators
are defined purely as `dst = dst OP expr`): assignment of the binary
expression built from the destination and the operand. -/
def accumulateSpec (op : Char) (v : vector ℚ) (e : VExpr) : vector ℚ :=
  v.assignExpr (VExpr.binop op (VExpr.vecLeaf v) e)

/-- The static per-expression-type cache `vector::exdata<Expr>`: maps a
`cl_context` (a `Nat`) to its compiled flag, compiled kernel (modelled by
its source string) and work-group size.  `std::map::operator[]`
default-constructs absent entries, hence total functions with defaults
`false` / `none` / arbitrary. -/
structure ExCache where
  compiled : Nat → Bool
  kernel : Nat → Option String
  wgsize : Nat → Nat

/-- The three cache stores executed on a successful build:
`exdata::kernel[ctx] = ...; exdata::compiled[ctx] = true;
exdata::wgsize[ctx] = ...`. -/
def ExCache.store (c : ExCache) (ctx : Nat) (src : String) (wgs : Nat) : ExCache where
  compiled := fun x => if x = ctx then true else c.compiled x
  kernel := fun x => if x = ctx then some src else c.kernel x
  wgsize := fun x => if x = ctx then wgs else c.wgsize x

/-- The compile loop of `vector::operator=(const Expr&)` (first `for`
over the queues): for each queue's context, if the expression type is not
yet compiled for it, synthesise the source, build it and store kernel,
flag and work-group size.  `src` is the kernel source synthesised for the
expression type, `wg` the per-context work-group size choice
(`kernel_workgroup_size`).  The second component accumulates the contexts
compiled during the call, in order. -/
def compilePass (src : String) (wg : Nat → Nat) :
    List Nat → ExCache × List Nat → ExCache × List Nat
  | [], st => st
  | ctx :: rest, st =>
      if st.1.compiled ctx then compilePass src wg rest st
      else compilePass src wg rest (st.1.store ctx src (wg ctx), st.2 ++ [ctx])

/-- The compile loop with a fallible `build_sources`/`cl::Kernel`
construction: `ok ctx = false` means the build for that context throws.
On a throw the exception propagates (`Except.error`), carrying the
failing context and the global cache state at that moment; the
`compiled` flag is only ever stored after a successful build. -/
def compilePassF (src : String) (wg : Nat → Nat) (ok : Nat → Bool) :
    List Nat → ExCache × List Nat → Except (Nat × ExCache × List Nat) (ExCache × List Nat)
  | [], st => .ok st
  | ctx :: rest, st =>
      if st.1.compiled ctx then compilePassF src wg ok rest st
      else if ok ctx then
        compilePassF src wg ok rest (st.1.store ctx src (wg ctx), st.2 ++ [ctx])
      else .error (ctx, st)

/-! Concrete instances used by the witnesses. -/

/-- A two-shard vector over `ℕ` with table `[0, 2, 5]`. -/
def wVec : vector Nat :=
  ⟨2, [0, 2, 5], [[0, 0], [0, 0, 0]]⟩

/-- A two-shard destination with table `[0, 1, 3]`. -/
def dVec : vector Nat :=
  ⟨2, [0, 1, 3], [[5], [6, 7]]⟩

/-- A two-shard source with the same table as `dVec`. -/
def sVec : vector Nat :=
  ⟨2, [0, 1, 3], [[1], [2, 3]]⟩

/-- A three-shard vector over `ℕ` with one empty shard. -/
def tVec : vector Nat :=
  ⟨3, [0, 5, 5, 10], [[0, 0, 0, 0, 0], [], [0, 0, 0, 0, 0]]⟩

/-- A one-shard rational vector used as an expression leaf. -/
def qVec : vector ℚ :=
  ⟨1, [0, 1], [[0]]⟩

/-- `a + (b + c)` over vector leaves. -/
def exRightAssoc : VExpr :=
  VExpr.binop '+' (VExpr.vecLeaf qVec) (VExpr.binop '+' (VExpr.vecLeaf qVec) (VExpr.vecLeaf qVec))

/-- `(a + b) + c` over vector leaves. -/
def exLeftAssoc : VExpr :=
  VExpr.binop '+' (VExpr.binop '+' (VExpr.vecLeaf qVec) (VExpr.vecLeaf qVec)) (VExpr.vecLeaf qVec)

/-- A binary node with the unsupported operator `'%'` nested under a
supported `'+'` root. -/
def exBadNested : VExpr :=
  VExpr.binop '+' (VExpr.binop '%' (VExpr.scalarLeaf 0) (VExpr.scalarLeaf 0)) (VExpr.scalarLeaf 0)

/-- The empty cache: no context compiled, no kernels stored. -/
def emptyCache : ExCache :=
  ⟨fun _ => false, fun _ => none, fun _ => 0⟩

/-! General helper lemmas about lists. -/

theorem getD_set_self {γ : Type} (l : List γ) (d : Nat) (x dflt : γ) (h : d < l.length) :
    (l.set d x).getD d dflt = x := by
  simp [List.getD_eq_getElem?_getD, List.getElem?_set_self, h]

theorem getD_set_ne {γ : Type} (l : List γ) (d i : Nat) (x dflt : γ) (h : d ≠ i) :
    (l.set d x).getD i dflt = l.getD i dflt := by
  simp [List.getD_eq_getElem?_getD, List.getElem?_set_ne h]

theorem getD_replicate_lt {γ : Type} (k i : Nat) (x dflt : γ) (h : i < k) :
    (List.replicate k x).getD i dflt = x := by
  simp [List.getD_eq_getElem?_getD, List.getElem?_replicate, h]

theorem monoOfAdjacent (p : Nat → Nat) (np : Nat) (h : ∀ d, d < np → p d ≤ p (d + 1)) :
    ∀ i j, i ≤ j → j ≤ np → p i ≤ p j := by
  intro i j hij hj
  induction j, hij using Nat.le_induction with
  | base => exact Nat.le_refl _
  | succ j hij ih => exact Nat.le_trans (ih (by omega)) (h j (by omega))

theorem getLastD_eq_getD {γ : Type} :
    ∀ (l : List γ) (d dflt : γ) (k : Nat), l.length = k + 1 → l.getLastD d = l.getD k dflt := by
  intro l
  induction l with
  | nil => intro d dflt k h; simp at h
  | cons a t ih =>
      intro d dflt k h
      rw [List.getLastD_cons]
      cases t with
      | nil =>
          have hk : k = 0 := by simpa using h
          subst hk; rfl
      | cons b t' =>
          have hk : t'.length + 1 + 1 = k + 1 := by simpa using h
          cases k with
          | zero => omega
          | succ k' =>
              have : (b :: t').length = k' + 1 := by simp at hk ⊢; omega
              rw [ih a dflt k' this]
              rfl

/-! Characterisations of the transfer loop folds. -/

theorem foldlSkipSnd {β : Type} (c : Nat → Prop) [DecidablePred c] (f : Nat → β → β) :
    ∀ (ds : List Nat) (b : β) (is : List Nat),
      (ds.foldl (fun st d => if c d then st else (f d st.1, st.2 ++ [d])) (b, is)).2
        = is ++ ds.filter fun d => decide (¬ c d) := by
  intro ds
  induction ds with
  | nil => intro b is; simp
  | cons d rest ih =>
      intro b is
      by_cases h : c d
      · simp only [List.foldl_cons, if_pos h, ih, List.filter_cons]
        simp [h]
      · simp only [List.foldl_cons, if_neg h, ih, List.filter_cons]
        simp [h]

theorem foldlSkipFst {β : Type} (c : Nat → Prop) [DecidablePred c] (f : Nat → β → β) :
    ∀ (ds : List Nat) (b : β) (is : List Nat),
      (ds.foldl (fun st d => if c d then st else (f d st.1, st.2 ++ [d])) (b, is)).1
        = ds.foldl (fun b d => if c d then b else f d b) b := by
  intro ds
  induction ds with
  | nil => intro b is; rfl
  | cons d rest ih =>
      intro b is
      by_cases h : c d <;> simp only [List.foldl_cons, if_pos, if_neg, h, ih, ite_true,
        ite_false]

theorem foldlSetLength {γ : Type} (c : Nat → Prop) [DecidablePred c]
    (g : Nat → γ → γ) (dflt : γ) :
    ∀ (ds : List Nat) (b0 : List γ),
      (ds.foldl (fun b d => if c d then b else b.set d (g d (b.getD d dflt))) b0).length
        = b0.length := by
  intro ds
  induction ds with
  | nil => intro b0; rfl
  | cons d rest ih =>
      intro b0
      rw [List.foldl_cons]
      by_cases h : c d
      · rw [if_pos h]
        exact ih b0
      · rw [if_neg h, ih]
        exact List.length_set _ _ _

theorem foldlSetGetD {γ : Type} (c : Nat → Prop) [DecidablePred c]
    (g : Nat → γ → γ) (dflt : γ) :
    ∀ (ds : List Nat) (b0 : List γ), ds.Nodup → (∀ d ∈ ds, d < b0.length) → ∀ i,
      (ds.foldl (fun b d => if c d then b else b.set d (g d (b.getD d dflt))) b0).getD i dflt
        = if i ∈ ds ∧ ¬ c i then g i (b0.getD i dflt) else b0.getD i dflt := by
  intro ds
  induction ds with
  | nil => intro b0 _ _ i; simp
  | cons d rest ih =>
      intro b0 hnd hb i
      have hdrest : d ∉ rest := (List.nodup_cons.mp hnd).1
      have hrest : rest.Nodup := (List.nodup_cons.mp hnd).2
      by_cases h : c d
      · rw [List.foldl_cons, if_pos h,
          ih b0 hrest (fun x hx => hb x (List.mem_cons_of_mem d hx)) i]
        by_cases hi : i = d
        · subst hi; simp [h]
        · simp [List.mem_cons, hi]
      · have hd : d < b0.length := hb d (List.mem_cons_self d rest)
        rw [List.foldl_cons, if_neg h]
        have hlen : (b0.set d (g d (b0.getD d dflt))).length = b0.length := List.length_set _ _ _
        rw [ih (b0.set d (g d (b0.getD d dflt))) hrest
          (fun x hx => by rw [hlen]; exact hb x (List.mem_cons_of_mem d hx)) i]
        by_cases hi : i = d
        · subst hi
          simp only [hdrest, false_and, if_false, List.mem_cons, true_or, h,
            not_false_iff, and_true, if_true]
          exact getD_set_self b0 i _ dflt hd
        · rw [getD_set_ne b0 d i _ dflt (fun hh => hi hh.symm)]
          simp [List.mem_cons, hi]

theorem foldlSetShiftLength {γ : Type} (f : Nat → γ) :
    ∀ (ds : List Nat) (b0 : List γ),
      (ds.foldl (fun l d => l.set (d + 1) (f d)) b0).length = b0.length := by
  intro ds
  induction ds with
  | nil => intro b0; rfl
  | cons d rest ih => intro b0; simp [List.foldl_cons, ih, List.length_set]

theorem foldlSetShiftGetD {γ : Type} (f : Nat → γ) (dflt : γ) :
    ∀ (ds : List Nat) (b0 : List γ), ds.Nodup → (∀ d ∈ ds, d + 1 < b0.length) → ∀ i,
      (ds.foldl (fun l d => l.set (d + 1) (f d)) b0).getD i dflt
        = if 1 ≤ i ∧ i - 1 ∈ ds then f (i - 1) else b0.getD i dflt := by
  intro ds
  induction ds with
  | nil => intro b0 _ _ i; simp
  | cons d rest ih =>
      intro b0 hnd hb i
      have hdrest : d ∉ rest := (List.nodup_cons.mp hnd).1
      have hrest : rest.Nodup := (List.nodup_cons.mp hnd).2
      have hd : d + 1 < b0.length := hb d (List.mem_cons_self d rest)
      rw [List.foldl_cons]
      have hlen : (b0.set (d + 1) (f d)).length = b0.length := List.length_set _ _ _
      rw [ih (b0.set (d + 1) (f d)) hrest
        (fun x hx => by rw [hlen]; exact hb x (List.mem_cons_of_mem d hx)) i]
      by_cases hi : i = d + 1
      · subst hi
        have h1 : d + 1 - 1 = d := by omega
        simp only [h1, hdrest, le_add_iff_nonneg_left, Nat.zero_le, true_and, if_false,
          List.mem_cons, true_or, if_true]
        exact getD_set_self b0 (d + 1) _ dflt hd
      · by_cases hmem : 1 ≤ i ∧ i - 1 ∈ rest
        · have : 1 ≤ i ∧ i - 1 ∈ d :: rest := ⟨hmem.1, List.mem_cons_of_mem d hmem.2⟩
          simp [hmem, this]
        · have hnot : ¬ (1 ≤ i ∧ i - 1 ∈ d :: rest) := by
            intro hcontra
            rcases hcontra with ⟨h1, h2⟩
            rcases List.mem_cons.mp h2 with h3 | h3
            · exact hi (by omega)
            · exact hmem ⟨h1, h3⟩
          rw [if_neg hmem, if_neg hnot]
          exact getD_set_ne b0 (d + 1) i _ dflt (fun hh => hi hh.symm)

/-! Properties of `setSlice`. -/

theorem setSlice_length {α : Type} (l src : List α) (off : Nat)
    (h : off + src.length ≤ l.length) : (setSlice l off src).length = l.length := by
  simp only [setSlice, List.length_append, List.length_take, List.length_drop]
  omega

theorem setSlice_take {α : Type} (l src : List α) (off : Nat)
    (h : off + src.length ≤ l.length) :
    (setSlice l off src).take (off + src.length) = l.take off ++ src := by
  have h1 : (l.take off ++ src).length = off + src.length := by
    simp only [List.length_append, List.length_take]
    omega
  have h2 : setSlice l off src = (l.take off ++ src) ++ l.drop (off + src.length) := by
    simp [setSlice, List.append_assoc]
  rw [h2, ← h1, List.take_left]

theorem setSlice_full {α : Type} (l src : List α) (h : src.length = l.length) :
    setSlice l 0 src = src := by
  simp [setSlice, h, List.drop_length]

/-! Claim C1: the performance-weighted partition table invariant. -/

theorem alignup_eq (x : Nat) : alignup x = 16 * ((x + 15) / 16) := by
  unfold alignup
  split <;> omega

theorem alignup_mono {a b : Nat} (h : a ≤ b) : alignup a ≤ alignup b := by
  rw [alignup_eq, alignup_eq]
  have : (a + 15) / 16 ≤ (b + 15) / 16 := Nat.div_le_div_right (by omega)
  omega

theorem cumw_nonneg (w : List ℚ) (hw : ∀ x ∈ w, 0 ≤ x) (i : Nat) : 0 ≤ cumw w i := by
  refine List.sum_nonneg ?_
  intro x hx
  exact hw x (List.take_subset i w hx)

theorem cumw_mono (w : List ℚ) (hw : ∀ x ∈ w, 0 ≤ x) {i j : Nat} (h : i ≤ j) :
    cumw w i ≤ cumw w j := by
  unfold cumw
  have hj : j = i + (j - i) := by omega
  rw [hj, List.take_add, List.sum_append]
  have : 0 ≤ ((w.drop i).take (j - i)).sum := by
    refine List.sum_nonneg ?_
    intro x hx
    exact hw x (List.drop_subset i w (List.take_subset _ _ hx))
  linarith

theorem partition_length (n : Nat) (w : List ℚ) :
    (partition_by_vector_perf n w).length = w.length + 1 := by
  unfold partition_by_vector_perf
  by_cases h : 1 < w.length
  · simp only [h, if_true, List.length_set]
    rw [foldlSetShiftLength]
    simp
  · simp only [h, if_false, List.length_set]
    simp

theorem partition_entry (n : Nat) (w : List ℚ) (i : Nat) (hi : i ≤ w.length) :
    (partition_by_vector_perf n w).getD i 0 =
      if i = w.length then n
      else if i = 0 then 0
      else partEntry n w (i - 1) := by
  by_cases hk : 1 < w.length
  · simp only [partition_by_vector_perf, hk, if_true]
    have hlen : (List.foldl (fun part d => part.set (d + 1) (partEntry n w d))
        (List.replicate (w.length + 1) 0) (List.range w.length)).length = w.length + 1 := by
      rw [foldlSetShiftLength (partEntry n w) (List.range w.length)
        (List.replicate (w.length + 1) 0)]
      exact List.length_replicate _ _
    by_cases hik : i = w.length
    · subst hik
      rw [if_pos rfl]
      exact getD_set_self _ _ _ _ (by rw [hlen]; omega)
    · rw [getD_set_ne _ _ _ _ _ (fun hh => hik hh.symm)]
      rw [foldlSetShiftGetD (partEntry n w) 0 (List.range w.length)
        (List.replicate (w.length + 1) 0) (List.nodup_range w.length)
        (fun d hd => by
          rw [List.length_replicate]
          exact Nat.succ_lt_succ (List.mem_range.mp hd)) i]
      by_cases hz : i = 0
      · subst hz
        simp only [hik, if_false, if_pos rfl]
        have hno : ¬ (1 ≤ (0 : Nat) ∧ 0 - 1 ∈ List.range w.length) := by
          intro hcontra; omega
        rw [if_neg hno]
        exact getD_replicate_lt _ _ _ _ (by omega)
      · have h1 : 1 ≤ i := by omega
        have h2 : i - 1 ∈ List.range w.length := List.mem_range.mpr (by omega)
        rw [if_pos ⟨h1, h2⟩, if_neg hik, if_neg hz]
  · simp only [partition_by_vector_perf, hk, if_false]
    by_cases hik : i = w.length
    · subst hik
      rw [if_pos rfl]
      exact getD_set_self _ _ _ _ (by rw [List.length_replicate]; omega)
    · have h1 : w.length = 1 := by omega
      have h0 : i = 0 := by omega
      subst h0
      rw [getD_set_ne _ _ _ _ _ (by omega)]
      rw [if_neg hik, if_pos rfl]
      exact getD_replicate_lt _ _ _ _ (by omega)

theorem partEntry_mono (n : Nat) (w : List ℚ) (hw : ∀ x ∈ w, 0 ≤ x) {i j : Nat}
    (h : i ≤ j) : partEntry n w i ≤ partEntry n w j := by
  unfold partEntry
  have hc : cumw w (i + 1) ≤ cumw w (j + 1) := cumw_mono w hw (by omega)
  have hnum : (n : ℚ) * cumw w (i + 1) ≤ (n : ℚ) * cumw w (j + 1) := by
    apply mul_le_mul_of_nonneg_left hc
    positivity
  have hdiv : (n : ℚ) * cumw w (i + 1) / cumw w w.length ≤
      (n : ℚ) * cumw w (j + 1) / cumw w w.length := by
    rcases eq_or_lt_of_le (cumw_nonneg w hw w.length) with hz | hz
    · rw [← hz, div_zero, div_zero]
    · gcongr
  have hfl : ⌊(n : ℚ) * cumw w (i + 1) / cumw w w.length⌋ ≤
      ⌊(n : ℚ) * cumw w (j + 1) / cumw w w.length⌋ :=
    Int.floor_mono hdiv
  exact min_le_min (Nat.le_refl n) (alignup_mono (Int.toNat_le_toNat hfl))

/-- Claim C1: for every length `n` and device count `k ≥ 1`, with
non-negative measured weights (zero weights allowed),
`partition_by_vector_perf` returns a table of length `k + 1` that starts
at `0`, ends at `n`, is monotonically non-decreasing, and has every entry
bounded by `n`. -/
theorem partition_by_vector_perf_invariant (n : Nat) (w : List ℚ) (hk : 1 ≤ w.length)
    (hw : ∀ x ∈ w, 0 ≤ x) :
    (partition_by_vector_perf n w).length = w.length + 1 ∧
    (partition_by_vector_perf n w).getD 0 0 = 0 ∧
    (partition_by_vector_perf n w).getD w.length 0 = n ∧
    (∀ i, i < w.length →
      (partition_by_vector_perf n w).getD i 0 ≤ (partition_by_vector_perf n w).getD (i + 1) 0) ∧
    (∀ i, i ≤ w.length → (partition_by_vector_perf n w).getD i 0 ≤ n) := by
  refine ⟨partition_length n w, ?_, ?_, ?_, ?_⟩
  · rw [partition_entry n w 0 (by omega)]
    have h0 : (0 : Nat) ≠ w.length := by omega
    simp [h0]
  · rw [partition_entry n w w.length (by omega)]
    simp
  · intro i hi
    rw [partition_entry n w i (by omega), partition_entry n w (i + 1) (by omega)]
    by_cases hz : i = 0
    · subst hz
      have h0 : (0 : Nat) ≠ w.length := by omega
      simp only [h0, if_false, if_true]
      split <;> [exact Nat.zero_le n; exact Nat.zero_le _]
    · have hne : i ≠ w.length := by omega
      simp only [hne, hz, if_false]
      by_cases hlast : i + 1 = w.length
      · simp only [hlast, if_true]
        exact Nat.min_le_left _ _
      · have h1 : i + 1 ≠ 0 := by omega
        simp only [hlast, h1, if_false]
        have h2 : i + 1 - 1 = i := by omega
        rw [h2]
        exact partEntry_mono n w hw (by omega)
  · intro i hi
    rw [partition_entry n w i hi]
    by_cases hik : i = w.length
    · simp [hik]
    · by_cases hz : i = 0
      · subst hz
        simp [hik]
      · simp only [hik, hz, if_false]
        exact Nat.min_le_left _ _

/-! Claim C2: the transfer loops of `write_data`/`read_data` and the
write/read round trip. -/

theorem transfers_size_zero (part : List Nat) (nq offset : Nat) :
    transfers part nq offset 0 = [] := by
  unfold transfers
  rw [List.filter_eq_nil_iff]
  intro d _
  simp only [decide_eq_true_eq]
  omega

theorem transfers_nodup (part : List Nat) (nq offset size : Nat) :
    (transfers part nq offset size).Nodup :=
  (List.nodup_range nq).filter _

theorem mem_transfers (part : List Nat) (nq offset size d : Nat) :
    d ∈ transfers part nq offset size ↔
      d < nq ∧ max offset (part.getD d 0) < min (offset + size) (part.getD (d + 1) 0) := by
  unfold transfers
  rw [List.mem_filter, List.mem_range]
  simp

theorem size_eq_getD {α : Type} (v : vector α) (hwf : v.wf) :
    v.size = v.part.getD v.nq 0 :=
  getLastD_eq_getD v.part 0 0 v.nq hwf.1

theorem eq_of_take_eq_full {α : Type} (X Y : List α) (n : Nat) (hX : X.length = n)
    (hY : Y.length = n) (h : X.take n = Y.take n) : X = Y := by
  have h1 : X.take n = X := by
    rw [← hX]
    exact List.take_length X
  have h2 : Y.take n = Y := by
    rw [← hY]
    exact List.take_length Y
  exact (h1.symm.trans h).trans h2

theorem write_data_issued {α : Type} (v : vector α) (offset size : Nat) (host : List α)
    (b : Bool) :
    (v.write_data offset size host b).2.1 = transfers v.part v.nq offset size := by
  by_cases hs : size = 0
  · subst hs
    simp [vector.write_data, transfers_size_zero]
  · have key := foldlSkipSnd
      (fun d => min (offset + size) (v.part.getD (d + 1) 0) ≤ max offset (v.part.getD d 0))
      (fun d bufs => bufs.set d (setSlice (bufs.getD d [])
        (max offset (v.part.getD d 0) - v.part.getD d 0)
        ((host.drop (max offset (v.part.getD d 0) - offset)).take
          (min (offset + size) (v.part.getD (d + 1) 0) - max offset (v.part.getD d 0)))))
      (List.range v.nq) v.buf []
    have h2 : (([] : List Nat) ++ (List.range v.nq).filter
        (fun d => decide (¬ (min (offset + size) (v.part.getD (d + 1) 0) ≤
          max offset (v.part.getD d 0))))) = transfers v.part v.nq offset size := by
      rw [List.nil_append]
      unfold transfers
      apply List.filter_congr
      intro d _
      apply decide_eq_decide.mpr
      omega
    unfold vector.write_data
    rw [if_neg hs]
    exact key.trans h2

theorem write_data_waited {α : Type} (v : vector α) (offset size : Nat) (host : List α) :
    (v.write_data offset size host true).2.2 = transfers v.part v.nq offset size := by
  by_cases hs : size = 0
  · subst hs
    simp [vector.write_data, transfers_size_zero]
  · unfold vector.write_data
    rw [if_neg hs]
    rfl

theorem read_data_issued {α : Type} (v : vector α) (offset size : Nat) (host : List α)
    (b : Bool) :
    (v.read_data offset size host b).2.1 = transfers v.part v.nq offset size := by
  by_cases hs : size = 0
  · subst hs
    simp [vector.read_data, transfers_size_zero]
  · have key := foldlSkipSnd
      (fun d => min (offset + size) (v.part.getD (d + 1) 0) ≤ max offset (v.part.getD d 0))
      (fun d o => setSlice o (max offset (v.part.getD d 0) - offset)
        (((v.buf.getD d []).drop (max offset (v.part.getD d 0) - v.part.getD d 0)).take
          (min (offset + size) (v.part.getD (d + 1) 0) - max offset (v.part.getD d 0))))
      (List.range v.nq) host []
    have h2 : (([] : List Nat) ++ (List.range v.nq).filter
        (fun d => decide (¬ (min (offset + size) (v.part.getD (d + 1) 0) ≤
          max offset (v.part.getD d 0))))) = transfers v.part v.nq offset size := by
      rw [List.nil_append]
      unfold transfers
      apply List.filter_congr
      intro d _
      apply decide_eq_decide.mpr
      omega
    unfold vector.read_data
    rw [if_neg hs]
    exact key.trans h2

theorem read_data_waited {α : Type} (v : vector α) (offset size : Nat) (host : List α) :
    (v.read_data offset size host true).2.2 = transfers v.part v.nq offset size := by
  by_cases hs : size = 0
  · subst hs
    simp [vector.read_data, transfers_size_zero]
  · unfold vector.read_data
    rw [if_neg hs]
    rfl

theorem write_data_buf_zero {α : Type} (v : vector α) (host : List α) (b : Bool)
    (hwf : v.wf) (hh : host.length = v.size) (hs : v.size ≠ 0) (d : Nat) (hd : d < v.nq) :
    ((v.write_data 0 v.size host b).1).buf.getD d []
      = (host.drop (v.part.getD d 0)).take (v.part.getD (d + 1) 0 - v.part.getD d 0) := by
  have hlen := hwf.1
  have hblen := hwf.2.1
  have hmono := hwf.2.2.2.1
  have hbsz := hwf.2.2.2.2
  have e1 : ((v.write_data 0 v.size host b).1).buf
      = (List.range v.nq).foldl
          (fun bufs d =>
            if min (0 + v.size) (v.part.getD (d + 1) 0) ≤ max 0 (v.part.getD d 0) then bufs
            else bufs.set d (setSlice (bufs.getD d [])
              (max 0 (v.part.getD d 0) - v.part.getD d 0)
              ((host.drop (max 0 (v.part.getD d 0) - 0)).take
                (min (0 + v.size) (v.part.getD (d + 1) 0) - max 0 (v.part.getD d 0)))))
          v.buf := by
    unfold vector.write_data
    rw [if_neg hs]
    exact foldlSkipFst
      (fun d => min (0 + v.size) (v.part.getD (d + 1) 0) ≤ max 0 (v.part.getD d 0))
      (fun d bufs => bufs.set d (setSlice (bufs.getD d [])
        (max 0 (v.part.getD d 0) - v.part.getD d 0)
        ((host.drop (max 0 (v.part.getD d 0) - 0)).take
          (min (0 + v.size) (v.part.getD (d + 1) 0) - max 0 (v.part.getD d 0)))))
      (List.range v.nq) v.buf []
  rw [e1]
  rw [foldlSetGetD
    (fun d => min (0 + v.size) (v.part.getD (d + 1) 0) ≤ max 0 (v.part.getD d 0))
    (fun d x => setSlice x (max 0 (v.part.getD d 0) - v.part.getD d 0)
      ((host.drop (max 0 (v.part.getD d 0) - 0)).take
        (min (0 + v.size) (v.part.getD (d + 1) 0) - max 0 (v.part.getD d 0))))
    [] (List.range v.nq) v.buf (List.nodup_range _)
    (fun x hx => by rw [hblen]; exact List.mem_range.mp hx) d]
  have hple : v.part.getD d 0 ≤ v.part.getD (d + 1) 0 := hmono d hd
  have hszq : v.size = v.part.getD v.nq 0 := size_eq_getD v hwf
  have hup : v.part.getD (d + 1) 0 ≤ v.size := by
    have hmq : v.part.getD (d + 1) 0 ≤ v.part.getD v.nq 0 :=
      monoOfAdjacent (fun i => v.part.getD i 0) v.nq hmono (d + 1) v.nq (by omega)
        (Nat.le_refl _)
    omega
  by_cases hc : min (0 + v.size) (v.part.getD (d + 1) 0) ≤ max 0 (v.part.getD d 0)
  · rw [if_neg (fun hcontra => hcontra.2 hc)]
    have hpe : v.part.getD (d + 1) 0 - v.part.getD d 0 = 0 := by omega
    have hb0 : (v.buf.getD d []).length = 0 := by
      rw [hbsz d hd]
      omega
    rw [hpe, List.take_zero]
    exact List.length_eq_zero.mp hb0
  · rw [if_pos ⟨List.mem_range.mpr hd, hc⟩]
    have hmin : min (0 + v.size) (v.part.getD (d + 1) 0) = v.part.getD (d + 1) 0 := by omega
    have hmax : max 0 (v.part.getD d 0) = v.part.getD d 0 := Nat.zero_max _
    rw [hmax, hmin, Nat.sub_self, Nat.sub_zero]
    apply setSlice_full
    rw [List.length_take, List.length_drop, hbsz d hd, hh]
    omega

theorem readFoldTake {α : Type} (p : Nat → Nat) (bufs : Nat → List α) (host : List α)
    (n nq : Nat) (hn : host.length = n)
    (hmono : ∀ d, d < nq → p d ≤ p (d + 1))
    (h0 : p 0 = 0) (hlast : p nq = n)
    (hbufs : ∀ d, d < nq → bufs d = (host.drop (p d)).take (p (d + 1) - p d)) :
    ∀ m, m ≤ nq → ∀ out0 : List α, out0.length = n →
      (((List.range m).foldl
        (fun o d =>
          if min (0 + n) (p (d + 1)) ≤ max 0 (p d) then o
          else setSlice o (max 0 (p d) - 0)
            (((bufs d).drop (max 0 (p d) - p d)).take (min (0 + n) (p (d + 1)) - max 0 (p d))))
        out0).length = n ∧
      ((List.range m).foldl
        (fun o d =>
          if min (0 + n) (p (d + 1)) ≤ max 0 (p d) then o
          else setSlice o (max 0 (p d) - 0)
            (((bufs d).drop (max 0 (p d) - p d)).take (min (0 + n) (p (d + 1)) - max 0 (p d))))
        out0).take (p m) = host.take (p m)) := by
  intro m
  induction m with
  | zero =>
      intro _ out0 hout
      constructor
      · simpa using hout
      · simp [h0]
  | succ m ih =>
      intro hm out0 hout
      have hm' : m ≤ nq := by omega
      obtain ⟨ihlen, ihtake⟩ := ih hm' out0 hout
      rw [List.range_succ, List.foldl_append, List.foldl_cons, List.foldl_nil]
      have hple : p m ≤ p (m + 1) := hmono m (by omega)
      have hup : p (m + 1) ≤ n := by
        have := monoOfAdjacent p nq hmono (m + 1) nq (by omega) (Nat.le_refl _)
        omega
      by_cases hc : min (0 + n) (p (m + 1)) ≤ max 0 (p m)
      · rw [if_pos hc]
        have hpe : p (m + 1) = p m := by omega
        exact ⟨ihlen, by rw [hpe]; exact ihtake⟩
      · rw [if_neg hc]
        have hmin : min (0 + n) (p (m + 1)) = p (m + 1) := by omega
        have hmax : max 0 (p m) = p m := Nat.zero_max _
        rw [hmax, hmin, Nat.sub_self, Nat.sub_zero, List.drop_zero]
        have hbl : (bufs m).length = p (m + 1) - p m := by
          rw [hbufs m (by omega), List.length_take, List.length_drop, hn]
          omega
        have htk : (bufs m).take (p (m + 1) - p m) = bufs m := by
          rw [← hbl]
          exact List.take_length _
        rw [htk]
        have hfit : p m + (bufs m).length ≤
            ((List.range m).foldl
              (fun o d =>
                if min (0 + n) (p (d + 1)) ≤ max 0 (p d) then o
                else setSlice o (max 0 (p d) - 0)
                  (((bufs d).drop (max 0 (p d) - p d)).take
                    (min (0 + n) (p (d + 1)) - max 0 (p d))))
              out0).length := by
          rw [ihlen, hbl]
          omega
        constructor
        · rw [setSlice_length _ _ _ hfit, ihlen]
        · have hsum : p m + (bufs m).length = p (m + 1) := by
            rw [hbl]
            omega
          rw [← hsum, setSlice_take _ _ _ hfit, ihtake, List.take_add, hbl,
            hbufs m (by omega)]

/-- Claim C2: writing a host array of length `n` into a device vector and
reading it back (blocking) returns the original array, over any partition
topology; each `write_data`/`read_data` call enqueues exactly one
transfer per shard whose intersection of `[offset, offset + size)` with
`[part[d], part[d + 1])` is non-empty, skips shards with empty
intersection, and when `blocking` waits on every issued transfer's event
before returning. -/
theorem write_read_roundtrip {α : Type} (v : vector α) (host out0 : List α)
    (hwf : v.wf) (hh : host.length = v.size) (ho : out0.length = v.size) :
    (∀ b : Bool,
      (((v.write_data 0 v.size host b).1).read_data 0 v.size out0 true).1 = host) ∧
    (∀ offset size : Nat, ∀ h : List α, ∀ b : Bool,
      (v.write_data offset size h b).2.1 = transfers v.part v.nq offset size ∧
      ((v.write_data offset size h b).2.1).Nodup ∧
      (b = true → (v.write_data offset size h b).2.2 = (v.write_data offset size h b).2.1)) ∧
    (∀ offset size : Nat, ∀ o : List α, ∀ b : Bool,
      (v.read_data offset size o b).2.1 = transfers v.part v.nq offset size ∧
      ((v.read_data offset size o b).2.1).Nodup ∧
      (b = true → (v.read_data offset size o b).2.2 = (v.read_data offset size o b).2.1)) ∧
    (∀ offset size d : Nat,
      d ∈ transfers v.part v.nq offset size ↔
        d < v.nq ∧ max offset (v.part.getD d 0) < min (offset + size) (v.part.getD (d + 1) 0)) := by
  refine ⟨?_, ?_, ?_, ?_⟩
  · intro b
    by_cases hn : v.size = 0
    · have hhost : host = [] := List.length_eq_zero.mp (by rw [hh, hn])
      have hout : out0 = [] := List.length_eq_zero.mp (by rw [ho, hn])
      rw [hn, hhost, hout]
      simp [vector.write_data, vector.read_data]
    · have hv'part : ((v.write_data 0 v.size host b).1).part = v.part := by
        unfold vector.write_data
        rw [if_neg hn]
      have hv'nq : ((v.write_data 0 v.size host b).1).nq = v.nq := by
        unfold vector.write_data
        rw [if_neg hn]
      have hv'buf : ∀ d, d < v.nq →
          ((v.write_data 0 v.size host b).1).buf.getD d []
            = (host.drop (v.part.getD d 0)).take (v.part.getD (d + 1) 0 - v.part.getD d 0) :=
        fun d hd => write_data_buf_zero v host b hwf hh hn d hd
      have e1 : (((v.write_data 0 v.size host b).1).read_data 0 v.size out0 true).1
          = (List.range ((v.write_data 0 v.size host b).1).nq).foldl
              (fun o d =>
                if min (0 + v.size) (((v.write_data 0 v.size host b).1).part.getD (d + 1) 0) ≤
                    max 0 (((v.write_data 0 v.size host b).1).part.getD d 0) then o
                else setSlice o (max 0 (((v.write_data 0 v.size host b).1).part.getD d 0) - 0)
                  (((((v.write_data 0 v.size host b).1).buf.getD d []).drop
                      (max 0 (((v.write_data 0 v.size host b).1).part.getD d 0) -
                        ((v.write_data 0 v.size host b).1).part.getD d 0)).take
                    (min (0 + v.size) (((v.write_data 0 v.size host b).1).part.getD (d + 1) 0) -
                      max 0 (((v.write_data 0 v.size host b).1).part.getD d 0))))
              out0 := by
        unfold vector.read_data
        rw [if_neg hn]
        exact foldlSkipFst
          (fun d => min (0 + v.size) (((v.write_data 0 v.size host b).1).part.getD (d + 1) 0) ≤
            max 0 (((v.write_data 0 v.size host b).1).part.getD d 0))
          (fun d o => setSlice o (max 0 (((v.write_data 0 v.size host b).1).part.getD d 0) - 0)
            (((((v.write_data 0 v.size host b).1).buf.getD d []).drop
                (max 0 (((v.write_data 0 v.size host b).1).part.getD d 0) -
                  ((v.write_data 0 v.size host b).1).part.getD d 0)).take
              (min (0 + v.size) (((v.write_data 0 v.size host b).1).part.getD (d + 1) 0) -
                max 0 (((v.write_data 0 v.size host b).1).part.getD d 0))))
          (List.range ((v.write_data 0 v.size host b).1).nq) out0 []
      rw [e1, hv'part, hv'nq]
      have key := readFoldTake (fun i => v.part.getD i 0)
        (fun d => ((v.write_data 0 v.size host b).1).buf.getD d []) host v.size v.nq hh
        hwf.2.2.2.1 hwf.2.2.1 (size_eq_getD v hwf).symm hv'buf v.nq (Nat.le_refl _) out0 ho
      obtain ⟨klen, ktake⟩ := key
      beta_reduce at klen ktake
      have hpnq : v.part.getD v.nq 0 = v.size := (size_eq_getD v hwf).symm
      rw [hpnq] at ktake
      exact eq_of_take_eq_full _ host v.size klen hh ktake
  · intro offset size h b
    refine ⟨write_data_issued v offset size h b, ?_, ?_⟩
    · rw [write_data_issued v offset size h b]
      exact transfers_nodup _ _ _ _
    · intro hb
      subst hb
      rw [write_data_issued v offset size h true]
      exact write_data_waited v offset size h
  · intro offset size o b
    refine ⟨read_data_issued v offset size o b, ?_, ?_⟩
    · rw [read_data_issued v offset size o b]
      exact transfers_nodup _ _ _ _
    · intro hb
      subst hb
      rw [read_data_issued v offset size o true]
      exact read_data_waited v offset size o
  · intro offset size d
    exact mem_transfers v.part v.nq offset size d

/-- Witness for C2: a two-shard vector with table `[0, 2, 5]`, the host
ramp `[1, 2, 3, 4, 5]`, and a partial write over `[1, 4)`. -/
theorem write_read_roundtrip_witness :
    (((wVec.write_data 0 wVec.size [1, 2, 3, 4, 5] true).1).read_data 0 wVec.size
        [9, 9, 9, 9, 9] true).1 = [1, 2, 3, 4, 5] ∧
    (wVec.write_data 1 3 [7, 7, 7] false).2.1 = transfers wVec.part wVec.nq 1 3 ∧
    (1 ∈ transfers wVec.part wVec.nq 1 3 ↔
      1 < wVec.nq ∧ max 1 (wVec.part.getD 1 0) < min (1 + 3) (wVec.part.getD 2 0)) :=
  ⟨(write_read_roundtrip wVec [1, 2, 3, 4, 5] [9, 9, 9, 9, 9]
      (by unfold vector.wf; decide) (by decide) (by decide)).1 true,
   ((write_read_roundtrip wVec [1, 2, 3, 4, 5] [9, 9, 9, 9, 9]
      (by unfold vector.wf; decide) (by decide) (by decide)).2.1 1 3 [7, 7, 7] false).1,
   (write_read_roundtrip wVec [1, 2, 3, 4, 5] [9, 9, 9, 9, 9]
      (by unfold vector.wf; decide) (by decide) (by decide)).2.2.2 1 3 1⟩

/-! Claim C9: copy assignment. -/

/-- Claim C9: self-assignment (`&x == this`) is a no-op that enqueues no
buffer copy and leaves the vector unchanged, while assignment between two
distinct same-shaped vectors enqueues exactly one buffer-to-buffer copy
per shard of non-zero size (in shard order, no duplicates), leaves `nq`
and the partition table untouched, and ends with the destination's
buffers holding the source's contents. -/
theorem copy_assignment_frame {α : Type} (dst x : vector α) (hwf : dst.wf) (hxwf : x.wf)
    (hp : x.part = dst.part) (hn : x.nq = dst.nq) :
    dst.copyAssign dst true = (dst, []) ∧
    (dst.copyAssign x false).1.part = dst.part ∧
    (dst.copyAssign x false).1.nq = dst.nq ∧
    (dst.copyAssign x false).2 = (List.range dst.nq).filter
      (fun d => decide (¬ (dst.part.getD (d + 1) 0 - dst.part.getD d 0 = 0))) ∧
    ((dst.copyAssign x false).2).Nodup ∧
    (∀ d, d < dst.nq → (dst.copyAssign x false).1.buf.getD d [] = x.buf.getD d []) := by
  have hsnd : (dst.copyAssign x false).2 = (List.range dst.nq).filter
      (fun d => decide (¬ (dst.part.getD (d + 1) 0 - dst.part.getD d 0 = 0))) := by
    have key := foldlSkipSnd
      (fun d => dst.part.getD (d + 1) 0 - dst.part.getD d 0 = 0)
      (fun d bufs => bufs.set d (setSlice (bufs.getD d [])
        0 ((x.buf.getD d []).take (dst.part.getD (d + 1) 0 - dst.part.getD d 0))))
      (List.range dst.nq) dst.buf []
    exact key
  refine ⟨rfl, rfl, rfl, hsnd, ?_, ?_⟩
  · rw [hsnd]
    exact (List.nodup_range _).filter _
  · intro d hd
    have e1 : (dst.copyAssign x false).1.buf
        = (List.range dst.nq).foldl
            (fun bufs d =>
              if dst.part.getD (d + 1) 0 - dst.part.getD d 0 = 0 then bufs
              else bufs.set d (setSlice (bufs.getD d [])
                0 ((x.buf.getD d []).take (dst.part.getD (d + 1) 0 - dst.part.getD d 0))))
            dst.buf := by
      exact foldlSkipFst
        (fun d => dst.part.getD (d + 1) 0 - dst.part.getD d 0 = 0)
        (fun d bufs => bufs.set d (setSlice (bufs.getD d [])
          0 ((x.buf.getD d []).take (dst.part.getD (d + 1) 0 - dst.part.getD d 0))))
        (List.range dst.nq) dst.buf []
    rw [e1]
    rw [foldlSetGetD
      (fun d => dst.part.getD (d + 1) 0 - dst.part.getD d 0 = 0)
      (fun d bufs => setSlice bufs
        0 ((x.buf.getD d []).take (dst.part.getD (d + 1) 0 - dst.part.getD d 0)))
      [] (List.range dst.nq) dst.buf (List.nodup_range _)
      (fun y hy => by rw [hwf.2.1]; exact List.mem_range.mp hy) d]
    have hdlen : (dst.buf.getD d []).length
        = dst.part.getD (d + 1) 0 - dst.part.getD d 0 := hwf.2.2.2.2 d hd
    have hxlen : (x.buf.getD d []).length
        = dst.part.getD (d + 1) 0 - dst.part.getD d 0 := by
      have := hxwf.2.2.2.2 d (by omega)
      rw [hp] at this
      exact this
    by_cases hc : dst.part.getD (d + 1) 0 - dst.part.getD d 0 = 0
    · rw [if_neg (fun hcontra => hcontra.2 hc)]
      have h1 : dst.buf.getD d [] = [] := List.length_eq_zero.mp (by omega)
      have h2 : x.buf.getD d [] = [] := List.length_eq_zero.mp (by omega)
      rw [h1, h2]
    · rw [if_pos ⟨List.mem_range.mpr hd, hc⟩]
      have htk : (x.buf.getD d []).take (dst.part.getD (d + 1) 0 - dst.part.getD d 0)
          = x.buf.getD d [] := by
        rw [← hxlen]
        exact List.take_length _
      rw [htk]
      apply setSlice_full
      omega

/-- Witness for C9 with the same-shaped two-shard vectors `dVec`, `sVec`. -/
theorem copy_assignment_frame_witness :
    dVec.copyAssign dVec true = (dVec, []) ∧
    (dVec.copyAssign sVec false).1.part = dVec.part ∧
    (dVec.copyAssign sVec false).2 = (List.range dVec.nq).filter
      (fun d => decide (¬ (dVec.part.getD (d + 1) 0 - dVec.part.getD d 0 = 0))) ∧
    (dVec.copyAssign sVec false).1.buf.getD 1 [] = sVec.buf.getD 1 [] :=
  ⟨(copy_assignment_frame dVec sVec (by unfold vector.wf; decide) (by unfold vector.wf; decide)
      (by decide) (by decide)).1,
   (copy_assignment_frame dVec sVec (by unfold vector.wf; decide) (by unfold vector.wf; decide)
      (by decide) (by decide)).2.1,
   (copy_assignment_frame dVec sVec (by unfold vector.wf; decide) (by unfold vector.wf; decide)
      (by decide) (by decide)).2.2.2.1,
   (copy_assignment_frame dVec sVec (by unfold vector.wf; decide) (by unfold vector.wf; decide)
      (by decide) (by decide)).2.2.2.2.2 1 (by decide)⟩

/-! Claim C10: the shard search of `vector::operator[]`. -/

theorem subscriptLoopSpec (part : List Nat) (np index : Nat)
    (hmono : ∀ i, i < np → part.getD i 0 ≤ part.getD (i + 1) 0)
    (hup : index < part.getD np 0) :
    ∀ fuel d, d ≤ np → part.getD d 0 ≤ index → np - d < fuel →
      (subscriptLoop part np index fuel d < np ∧
       part.getD (subscriptLoop part np index fuel d) 0 ≤ index ∧
       index < part.getD (subscriptLoop part np index fuel d + 1) 0) := by
  intro fuel
  induction fuel with
  | zero =>
      intro d _ _ hf
      omega
  | succ fuel ih =>
      intro d hd hstart hf
      have hdlt : d < np := by
        rcases Nat.lt_or_ge d np with h | h
        · exact h
        · have hdn : d = np := by omega
          subst hdn
          omega
      simp only [subscriptLoop]
      by_cases hc : part.getD (d + 1) 0 ≤ index ∧ d < np
      · rw [if_pos hc]
        exact ih (d + 1) (by omega) hc.1 (by omega)
      · rw [if_neg hc]
        have hnd : ¬ part.getD (d + 1) 0 ≤ index := fun hcontra => hc ⟨hcontra, hdlt⟩
        exact ⟨hdlt, hstart, by omega⟩

/-- Claim C10: under the precondition `index < size()`, the shard-search
loop of `operator[]` terminates at the unique shard `d` with
`part[d] ≤ index < part[d + 1]`, and the element proxy is built with the
local offset `index - part[d]`, which is strictly below that shard's part
size. -/
theorem subscript_selects_owning_shard {α : Type} (v : vector α) (index : Nat)
    (hwf : v.wf) (hidx : index < v.size) :
    (v.subscript index).1 < v.nq ∧
    v.part.getD (v.subscript index).1 0 ≤ index ∧
    index < v.part.getD ((v.subscript index).1 + 1) 0 ∧
    (v.subscript index).2 = index - v.part.getD (v.subscript index).1 0 ∧
    (v.subscript index).2 < v.part_size (v.subscript index).1 ∧
    (∀ d, d < v.nq → v.part.getD d 0 ≤ index → index < v.part.getD (d + 1) 0 →
      d = (v.subscript index).1) := by
  have hup : index < v.part.getD v.nq 0 := by
    rw [← size_eq_getD v hwf]
    exact hidx
  have hs1 : (v.subscript index).1 = subscriptLoop v.part v.nq index (v.nq + 1) 0 := rfl
  have hs2 : (v.subscript index).2
      = index - v.part.getD (subscriptLoop v.part v.nq index (v.nq + 1) 0) 0 := rfl
  rw [hs1, hs2]
  obtain ⟨h1, h2, h3⟩ := subscriptLoopSpec v.part v.nq index hwf.2.2.2.1 hup (v.nq + 1) 0
    (by omega) (by rw [hwf.2.2.1]; omega) (by omega)
  refine ⟨h1, h2, h3, rfl, ?_, ?_⟩
  · unfold vector.part_size
    omega
  intro d hd hld hrd
  by_contra hne
  rcases Nat.lt_or_ge d (subscriptLoop v.part v.nq index (v.nq + 1) 0) with hlt | hge
  · have hmm : v.part.getD (d + 1) 0 ≤
        v.part.getD (subscriptLoop v.part v.nq index (v.nq + 1) 0) 0 :=
      monoOfAdjacent (fun i => v.part.getD i 0) v.nq hwf.2.2.2.1 (d + 1)
        (subscriptLoop v.part v.nq index (v.nq + 1) 0) (by omega) (by omega)
    omega
  · have hmm : v.part.getD (subscriptLoop v.part v.nq index (v.nq + 1) 0 + 1) 0 ≤
        v.part.getD d 0 :=
      monoOfAdjacent (fun i => v.part.getD i 0) v.nq hwf.2.2.2.1 _ d (by omega) (by omega)
    omega

/-- Witness for C10: the two-shard vector `wVec` (table `[0, 2, 5]`) at
index `3`, owned by shard `1`. -/
theorem subscript_selects_owning_shard_witness :
    (wVec.subscript 3).1 < wVec.nq ∧
    wVec.part.getD (wVec.subscript 3).1 0 ≤ 3 ∧
    3 < wVec.part.getD ((wVec.subscript 3).1 + 1) 0 ∧
    (wVec.subscript 3).2 = 3 - wVec.part.getD (wVec.subscript 3).1 0 ∧
    (wVec.subscript 3).2 < wVec.part_size (wVec.subscript 3).1 ∧
    (∀ d, d < wVec.nq → wVec.part.getD d 0 ≤ 3 → 3 < wVec.part.getD (d + 1) 0 →
      d = (wVec.subscript 3).1) :=
  subscript_selects_owning_shard wVec 3 (by unfold vector.wf; decide) (by decide)

/-! Claim C5: accumulation operators. -/

/-- Claim C5: each accumulation operator of `vex::vector` is extensionally
the assignment of the corresponding binary expression —
`dst OP= expr` is `dst = dst OP expr` — reusing the same synthesis path
(`assignExpr`); there is no separate in-place kernel. -/
theorem accumulate_is_assign (v : vector ℚ) (e : VExpr) :
    v.addAssign e = accumulateSpec '+' v e ∧
    v.subAssign e = accumulateSpec '-' v e ∧
    v.mulAssign e = accumulateSpec '*' v e ∧
    v.divAssign e = accumulateSpec '/' v e :=
  ⟨rfl, rfl, rfl, rfl⟩

/-! Claim C6: `part_size` of expression nodes. -/

/-- Claim C6: a binary composite's `part_size(d)` is the maximum of its
operands' part sizes, a vector leaf reports its true partition size
`part[d + 1] - part[d]`, and an adapted arithmetic scalar reports `0`. -/
theorem part_size_of_nodes (op : Char) (l r : VExpr) (d : Nat) (v : vector ℚ) (c : ℚ) :
    (VExpr.binop op l r).part_size d = max (l.part_size d) (r.part_size d) ∧
    (VExpr.vecLeaf v).part_size d = v.part.getD (d + 1) 0 - v.part.getD d 0 ∧
    (VExpr.scalarLeaf c).part_size d = 0 :=
  ⟨rfl, rfl, rfl⟩

/-! Claim C3: the Polish-notation kernel name uniquely encodes the
expression shape.  Claim C8: unsupported operators abort name synthesis. -/

theorem strDataAppend (a b : String) : (a ++ b).data = a.data ++ b.data :=
  String.data_append a b

theorem opTok_cases {op c : Char} (h : opTok op = some c) :
    (op = '+' ∧ c = 'p') ∨ (op = '-' ∧ c = 'm') ∨ (op = '*' ∧ c = 't') ∨
      (op = '/' ∧ c = 'd') := by
  unfold opTok at h
  split_ifs at h with h1 h2 h3 h4
  · exact Or.inl ⟨h1, (Option.some.inj h).symm⟩
  · exact Or.inr (Or.inl ⟨h2, (Option.some.inj h).symm⟩)
  · exact Or.inr (Or.inr (Or.inl ⟨h3, (Option.some.inj h).symm⟩))
  · exact Or.inr (Or.inr (Or.inr ⟨h4, (Option.some.inj h).symm⟩))

theorem shapeTok_node {op : Char} {l r : EShape} {lc : List Char}
    (h : shapeTok (EShape.node op l r) = some lc) :
    ∃ c a b1, opTok op = some c ∧ shapeTok l = some a ∧ shapeTok r = some b1 ∧
      lc = c :: (a ++ b1) := by
  unfold shapeTok at h
  cases hop : opTok op with
  | none =>
      rw [hop] at h
      simp at h
  | some c =>
      rw [hop] at h
      cases hl : shapeTok l with
      | none =>
          rw [hl] at h
          simp at h
      | some a =>
          rw [hl] at h
          cases hr : shapeTok r with
          | none =>
              rw [hr] at h
              simp at h
          | some b1 =>
              rw [hr] at h
              simp only [Option.some.injEq] at h
              exact ⟨c, a, b1, rfl, rfl, rfl, h.symm⟩

theorem shapeTok_polish_unique :
    ∀ (e1 e2 : EShape) (l1 l2 t1 t2 : List Char),
      shapeTok e1 = some l1 → shapeTok e2 = some l2 → l1 ++ t1 = l2 ++ t2 →
      e1 = e2 ∧ t1 = t2 := by
  intro e1
  induction e1 with
  | vec =>
      intro e2 l1 l2 t1 t2 h1 h2 happ
      have hl1 : l1 = ['v'] := by
        unfold shapeTok at h1
        exact (Option.some.inj h1).symm
      subst hl1
      cases e2 with
      | vec =>
          have hl2 : l2 = ['v'] := by
            unfold shapeTok at h2
            exact (Option.some.inj h2).symm
          subst hl2
          have h3 : t1 = t2 := by simpa using happ
          exact ⟨rfl, h3⟩
      | scalar =>
          have hl2 : l2 = ['c'] := by
            unfold shapeTok at h2
            exact (Option.some.inj h2).symm
          subst hl2
          simp at happ
      | node op2 l2' r2' =>
          obtain ⟨c2, a2, b2, hop2, _, _, rfl⟩ := shapeTok_node h2
          have h3 : 'v' = c2 ∧ t1 = (a2 ++ b2) ++ t2 := by simpa using happ
          rcases opTok_cases hop2 with ⟨_, rfl⟩ | ⟨_, rfl⟩ | ⟨_, rfl⟩ | ⟨_, rfl⟩ <;>
            exact absurd h3.1 (by decide)
  | scalar =>
      intro e2 l1 l2 t1 t2 h1 h2 happ
      have hl1 : l1 = ['c'] := by
        unfold shapeTok at h1
        exact (Option.some.inj h1).symm
      subst hl1
      cases e2 with
      | vec =>
          have hl2 : l2 = ['v'] := by
            unfold shapeTok at h2
            exact (Option.some.inj h2).symm
          subst hl2
          simp at happ
      | scalar =>
          have hl2 : l2 = ['c'] := by
            unfold shapeTok at h2
            exact (Option.some.inj h2).symm
          subst hl2
          have h3 : t1 = t2 := by simpa using happ
          exact ⟨rfl, h3⟩
      | node op2 l2' r2' =>
          obtain ⟨c2, a2, b2, hop2, _, _, rfl⟩ := shapeTok_node h2
          have h3 : 'c' = c2 ∧ t1 = (a2 ++ b2) ++ t2 := by simpa using happ
          rcases opTok_cases hop2 with ⟨_, rfl⟩ | ⟨_, rfl⟩ | ⟨_, rfl⟩ | ⟨_, rfl⟩ <;>
            exact absurd h3.1 (by decide)
  | node op l r ihl ihr =>
      intro e2 l1 l2 t1 t2 h1 h2 happ
      obtain ⟨c, a, b1, hop, hl, hr, rfl⟩ := shapeTok_node h1
      cases e2 with
      | vec =>
          have hl2 : l2 = ['v'] := by
            unfold shapeTok at h2
            exact (Option.some.inj h2).symm
          subst hl2
          have h3 : c = 'v' ∧ (a ++ b1) ++ t1 = t2 := by simpa using happ
          rcases opTok_cases hop with ⟨_, rfl⟩ | ⟨_, rfl⟩ | ⟨_, rfl⟩ | ⟨_, rfl⟩ <;>
            exact absurd h3.1 (by decide)
      | scalar =>
          have hl2 : l2 = ['c'] := by
            unfold shapeTok at h2
            exact (Option.some.inj h2).symm
          subst hl2
          have h3 : c = 'c' ∧ (a ++ b1) ++ t1 = t2 := by simpa using happ
          rcases opTok_cases hop with ⟨_, rfl⟩ | ⟨_, rfl⟩ | ⟨_, rfl⟩ | ⟨_, rfl⟩ <;>
            exact absurd h3.1 (by decide)
      | node op2 l2' r2' =>
          obtain ⟨c2, a2, b2, hop2, hl2, hr2, rfl⟩ := shapeTok_node h2
          have hc : c = c2 ∧ (a ++ b1) ++ t1 = (a2 ++ b2) ++ t2 := by simpa using happ
          have hops : op = op2 := by
            have hc12 := hc.1
            rcases opTok_cases hop with ⟨ho, rfl⟩ | ⟨ho, rfl⟩ | ⟨ho, rfl⟩ | ⟨ho, rfl⟩ <;>
              rcases opTok_cases hop2 with ⟨ho2, rfl⟩ | ⟨ho2, rfl⟩ | ⟨ho2, rfl⟩ | ⟨ho2, rfl⟩ <;>
              first
                | exact ho.trans ho2.symm
                | exact absurd hc12 (by decide)
          have happ2 : a ++ (b1 ++ t1) = a2 ++ (b2 ++ t2) := by
            simpa [List.append_assoc] using hc.2
          obtain ⟨hleq, htl⟩ := ihl l2' a a2 (b1 ++ t1) (b2 ++ t2) hl hl2 happ2
          obtain ⟨hreq, htr⟩ := ihr r2' b1 b2 t1 t2 hr hr2 htl
          exact ⟨by rw [hops, hleq, hreq], htr⟩

theorem kernel_name_data_binop_aux (l r : VExpr) (s : String) (c : Char)
    (hs : s.data = [c])
    (ihl : (VExpr.kernel_name l).map String.data = shapeTok l.shape)
    (ihr : (VExpr.kernel_name r).map String.data = shapeTok r.shape) :
    (((VExpr.kernel_name l).bind fun a =>
        (VExpr.kernel_name r).map fun b => s ++ a ++ b).map String.data)
      = (match (some c : Option Char), shapeTok l.shape, shapeTok r.shape with
          | some c, some a, some b => some (c :: (a ++ b))
          | _, _, _ => none) := by
  cases hl : VExpr.kernel_name l with
  | none =>
      have hls : shapeTok l.shape = none := by
        rw [← ihl, hl]
        rfl
      rw [hls]
      simp
  | some a =>
      have hls : shapeTok l.shape = some a.data := by
        rw [← ihl, hl]
        rfl
      cases hr : VExpr.kernel_name r with
      | none =>
          have hrs : shapeTok r.shape = none := by
            rw [← ihr, hr]
            rfl
          rw [hls, hrs]
          simp
      | some b1 =>
          have hrs : shapeTok r.shape = some b1.data := by
            rw [← ihr, hr]
            rfl
          rw [hls, hrs]
          simp [strDataAppend, hs]

theorem kernel_name_data : ∀ e : VExpr,
    (VExpr.kernel_name e).map String.data = shapeTok e.shape := by
  intro e
  induction e with
  | vecLeaf v => rfl
  | scalarLeaf c => rfl
  | binop op l r ihl ihr =>
      simp only [VExpr.kernel_name, VExpr.shape, shapeTok]
      by_cases h1 : op = '+'
      · subst h1
        rw [if_pos rfl]
        have ho : opTok '+' = some 'p' := rfl
        rw [ho]
        exact kernel_name_data_binop_aux l r "p" 'p' rfl ihl ihr
      · rw [if_neg h1]
        by_cases h2 : op = '-'
        · subst h2
          rw [if_pos rfl]
          have ho : opTok '-' = some 'm' := by
            unfold opTok
            rw [if_neg h1, if_pos rfl]
          rw [ho]
          exact kernel_name_data_binop_aux l r "m" 'm' rfl ihl ihr
        · rw [if_neg h2]
          by_cases h3 : op = '*'
          · subst h3
            rw [if_pos rfl]
            have ho : opTok '*' = some 't' := by
              unfold opTok
              rw [if_neg h1, if_neg h2, if_pos rfl]
            rw [ho]
            exact kernel_name_data_binop_aux l r "t" 't' rfl ihl ihr
          · rw [if_neg h3]
            by_cases h4 : op = '/'
            · subst h4
              rw [if_pos rfl]
              have ho : opTok '/' = some 'd' := by
                unfold opTok
                rw [if_neg h1, if_neg h2, if_neg h3, if_pos rfl]
              rw [ho]
              exact kernel_name_data_binop_aux l r "d" 'd' rfl ihl ihr
            · rw [if_neg h4]
              have ho : opTok op = none := by
                unfold opTok
                rw [if_neg h1, if_neg h2, if_neg h3, if_neg h4]
              rw [ho]
              simp

/-- Claim C3: `kernel_name()` is injective on expression shapes — two
expressions with defined kernel names yield equal name strings exactly
when they have the same tree shape (so structurally identical
expressions over different data share one cache key, and differently
associated sums get different names). -/
theorem kernel_name_encodes_shape (e1 e2 : VExpr) (s1 s2 : String)
    (h1 : VExpr.kernel_name e1 = some s1) (h2 : VExpr.kernel_name e2 = some s2) :
    s1 = s2 ↔ e1.shape = e2.shape := by
  have k1 : shapeTok e1.shape = some s1.data := by
    rw [← kernel_name_data e1, h1]
    rfl
  have k2 : shapeTok e2.shape = some s2.data := by
    rw [← kernel_name_data e2, h2]
    rfl
  constructor
  · intro hs
    subst hs
    obtain ⟨he, _⟩ := shapeTok_polish_unique e1.shape e2.shape s1.data s1.data [] [] k1 k2 rfl
    exact he
  · intro hsh
    rw [hsh, k2] at k1
    have hdata : s2.data = s1.data := Option.some.inj k1
    cases s1
    cases s2
    exact congrArg String.mk hdata.symm

/-- Witness for C3: `a + (b + c)` is named `"pvpvv"`, `(a + b) + c` is
named `"ppvvv"`, and the names differ exactly because the shapes do. -/
theorem kernel_name_encodes_shape_witness :
    VExpr.kernel_name exRightAssoc = some "pvpvv" ∧
    VExpr.kernel_name exLeftAssoc = some "ppvvv" ∧
    ("pvpvv" = "ppvvv" ↔ exRightAssoc.shape = exLeftAssoc.shape) ∧
    exRightAssoc.shape ≠ exLeftAssoc.shape :=
  ⟨rfl, rfl,
   kernel_name_encodes_shape exRightAssoc exLeftAssoc "pvpvv" "ppvvv" rfl rfl,
   by decide⟩

/-- Counterexample for C8 as stated: this binary expression's operator is
the supported `'+'`, yet `kernel_name()` throws (`none`), because the
unsupported `'%'` sits in its left operand. -/
theorem kernel_name_supported_op_still_throws :
    VExpr.kernel_name (VExpr.binop '+'
      (VExpr.binop '%' (VExpr.scalarLeaf 0) (VExpr.scalarLeaf 0))
      (VExpr.scalarLeaf 0)) = none :=
  rfl

/-- Claim C8 (amended): a binary expression whose operator is not one of
`+ - * /` always throws from `kernel_name()`; one with a supported
operator never throws provided both operands' kernel names are
themselves defined. -/
theorem kernel_name_unknown_op (op : Char) (l r : VExpr) :
    ((op ≠ '+' ∧ op ≠ '-' ∧ op ≠ '*' ∧ op ≠ '/') →
      VExpr.kernel_name (VExpr.binop op l r) = none) ∧
    ((op = '+' ∨ op = '-' ∨ op = '*' ∨ op = '/') →
      ∀ sl sr, VExpr.kernel_name l = some sl → VExpr.kernel_name r = some sr →
        ∃ s, VExpr.kernel_name (VExpr.binop op l r) = some s) := by
  constructor
  · rintro ⟨h1, h2, h3, h4⟩
    simp [VExpr.kernel_name, h1, h2, h3, h4]
  · intro hop sl sr hl hr
    rcases hop with rfl | rfl | rfl | rfl
    · exact ⟨"p" ++ sl ++ sr, by simp [VExpr.kernel_name, hl, hr]⟩
    · exact ⟨"m" ++ sl ++ sr, by simp [VExpr.kernel_name, hl, hr]⟩
    · exact ⟨"t" ++ sl ++ sr, by simp [VExpr.kernel_name, hl, hr]⟩
    · exact ⟨"d" ++ sl ++ sr, by simp [VExpr.kernel_name, hl, hr]⟩

/-- Witness for C8 (amended) at the unsupported `'%'` and the supported
`'+'` over scalar leaves. -/
theorem kernel_name_unknown_op_witness :
    VExpr.kernel_name (VExpr.binop '%' (VExpr.scalarLeaf 0) (VExpr.scalarLeaf 0)) = none ∧
    ∃ s, VExpr.kernel_name (VExpr.binop '+' (VExpr.scalarLeaf 0) (VExpr.scalarLeaf 0))
      = some s :=
  ⟨(kernel_name_unknown_op '%' (VExpr.scalarLeaf 0) (VExpr.scalarLeaf 0)).1 (by decide),
   (kernel_name_unknown_op '+' (VExpr.scalarLeaf 0) (VExpr.scalarLeaf 0)).2
     (Or.inl rfl) "c" "c" rfl rfl⟩

/-! Claims C4 and C7: the compiled-kernel cache. -/

theorem compilePass_all_compiled (src : String) (wg : Nat → Nat) :
    ∀ (ctxs : List Nat) (st : ExCache × List Nat),
      (∀ ctx ∈ ctxs, st.1.compiled ctx = true) → compilePass src wg ctxs st = st := by
  intro ctxs
  induction ctxs with
  | nil => intro st _; rfl
  | cons ctx rest ih =>
      intro st hall
      have hstep : compilePass src wg (ctx :: rest) st
          = if st.1.compiled ctx = true then compilePass src wg rest st
            else compilePass src wg rest (st.1.store ctx src (wg ctx), st.2 ++ [ctx]) := rfl
      rw [hstep, if_pos (hall ctx (List.mem_cons_self _ _))]
      exact ih st fun x hx => hall x (List.mem_cons_of_mem _ hx)

theorem compilePass_invariant (src : String) (wg : Nat → Nat) :
    ∀ (ctxs : List Nat) (c : ExCache) (log : List Nat),
      (∀ x, (compilePass src wg ctxs (c, log)).1.compiled x
        = (c.compiled x || decide (x ∈ ctxs))) ∧
      (∀ x, (compilePass src wg ctxs (c, log)).1.kernel x
        = if c.compiled x = false ∧ x ∈ ctxs then some src else c.kernel x) ∧
      (∀ x, (compilePass src wg ctxs (c, log)).1.wgsize x
        = if c.compiled x = false ∧ x ∈ ctxs then wg x else c.wgsize x) ∧
      ∃ nl, (compilePass src wg ctxs (c, log)).2 = log ++ nl ∧ nl.Nodup ∧
        (∀ x, x ∈ nl ↔ (c.compiled x = false ∧ x ∈ ctxs)) := by
  intro ctxs
  induction ctxs with
  | nil =>
      intro c log
      refine ⟨?_, ?_, ?_, [], ?_, List.nodup_nil, fun x => by simp⟩
      · intro x
        show c.compiled x = (c.compiled x || decide (x ∈ ([] : List Nat)))
        simp
      · intro x
        show c.kernel x
            = if c.compiled x = false ∧ x ∈ ([] : List Nat) then some src else c.kernel x
        simp
      · intro x
        show c.wgsize x
            = if c.compiled x = false ∧ x ∈ ([] : List Nat) then wg x else c.wgsize x
        simp
      · show log = log ++ []
        simp
  | cons ctx rest ih =>
      intro c log
      by_cases hc : c.compiled ctx = true
      · have hstep : compilePass src wg (ctx :: rest) (c, log)
            = compilePass src wg rest (c, log) := by
          have h0 : compilePass src wg (ctx :: rest) (c, log)
              = if c.compiled ctx = true then compilePass src wg rest (c, log)
                else compilePass src wg rest (c.store ctx src (wg ctx), log ++ [ctx]) := rfl
          rw [h0, if_pos hc]
        rw [hstep]
        obtain ⟨ih1, ih2, ih3, nl, ihl, ihnd, ihmem⟩ := ih c log
        refine ⟨?_, ?_, ?_, nl, ihl, ihnd, ?_⟩
        · intro x
          rw [ih1 x]
          by_cases hx : x = ctx
          · subst hx
            simp [hc]
          · simp [List.mem_cons, hx]
        · intro x
          rw [ih2 x]
          by_cases hx : x = ctx
          · subst hx
            simp [hc]
          · simp [List.mem_cons, hx]
        · intro x
          rw [ih3 x]
          by_cases hx : x = ctx
          · subst hx
            simp [hc]
          · simp [List.mem_cons, hx]
        · intro x
          rw [ihmem x]
          by_cases hx : x = ctx
          · subst hx
            simp [hc]
          · simp [List.mem_cons, hx]
      · have hcf : c.compiled ctx = false := by simpa using hc
        have hstep : compilePass src wg (ctx :: rest) (c, log)
            = compilePass src wg rest (c.store ctx src (wg ctx), log ++ [ctx]) := by
          have h0 : compilePass src wg (ctx :: rest) (c, log)
              = if c.compiled ctx = true then compilePass src wg rest (c, log)
                else compilePass src wg rest (c.store ctx src (wg ctx), log ++ [ctx]) := rfl
          rw [h0, if_neg hc]
        rw [hstep]
        obtain ⟨ih1, ih2, ih3, nl, ihl, ihnd, ihmem⟩ := ih (c.store ctx src (wg ctx)) (log ++ [ctx])
        have hstC : ∀ x, (c.store ctx src (wg ctx)).compiled x
            = if x = ctx then true else c.compiled x := fun x => rfl
        have hstK : ∀ x, (c.store ctx src (wg ctx)).kernel x
            = if x = ctx then some src else c.kernel x := fun x => rfl
        have hstW : ∀ x, (c.store ctx src (wg ctx)).wgsize x
            = if x = ctx then wg ctx else c.wgsize x := fun x => rfl
        refine ⟨?_, ?_, ?_, ctx :: nl, ?_, ?_, ?_⟩
        · intro x
          rw [ih1 x, hstC x]
          by_cases hx : x = ctx
          · subst hx
            simp
          · simp [hx, List.mem_cons]
        · intro x
          rw [ih2 x, hstC x, hstK x]
          by_cases hx : x = ctx
          · subst hx
            simp [hcf]
          · simp [hx, List.mem_cons]
        · intro x
          rw [ih3 x, hstC x, hstW x]
          by_cases hx : x = ctx
          · subst hx
            simp [hcf]
          · simp [hx, List.mem_cons]
        · rw [ihl]
          simp
        · refine List.nodup_cons.mpr ⟨?_, ihnd⟩
          rw [ihmem ctx]
          rintro ⟨hcc, _⟩
          rw [hstC ctx] at hcc
          simp at hcc
        · intro x
          rw [List.mem_cons, ihmem x, hstC x]
          by_cases hx : x = ctx
          · subst hx
            simp [hcf, List.mem_cons]
          · simp [hx, List.mem_cons]

/-- Claim C4: for one expression type (one `exdata<Expr>` instance,
shared by every destination vector of that type) and a cache in which
none of the touched contexts is yet compiled, the first assignment
compiles each distinct context exactly once (the compile log covers the
contexts with no duplicates) and stores kernel and work-group size; a
second assignment over the same contexts — from any destination vector —
compiles nothing and leaves the cache untouched. -/
theorem compile_cache_idempotent (ctxs : List Nat) (src : String) (wg : Nat → Nat)
    (c0 : ExCache) (hfresh : ∀ ctx ∈ ctxs, c0.compiled ctx = false) :
    ((compilePass src wg ctxs (c0, [])).2).Nodup ∧
    (∀ x, x ∈ (compilePass src wg ctxs (c0, [])).2 ↔ x ∈ ctxs) ∧
    (∀ ctx ∈ ctxs, (compilePass src wg ctxs (c0, [])).1.compiled ctx = true ∧
      (compilePass src wg ctxs (c0, [])).1.kernel ctx = some src ∧
      (compilePass src wg ctxs (c0, [])).1.wgsize ctx = wg ctx) ∧
    compilePass src wg ctxs ((compilePass src wg ctxs (c0, [])).1, [])
      = ((compilePass src wg ctxs (c0, [])).1, []) := by
  obtain ⟨h1, h2, h3, nl, hl, hnd, hmem⟩ := compilePass_invariant src wg ctxs c0 []
  have hlog : (compilePass src wg ctxs (c0, [])).2 = nl := by
    rw [hl]
    simp
  refine ⟨?_, ?_, ?_, ?_⟩
  · rw [hlog]
    exact hnd
  · intro x
    rw [hlog, hmem x]
    constructor
    · rintro ⟨_, hx⟩
      exact hx
    · intro hx
      exact ⟨hfresh x hx, hx⟩
  · intro ctx hctx
    refine ⟨?_, ?_, ?_⟩
    · rw [h1 ctx]
      simp [hctx]
    · rw [h2 ctx]
      simp [hfresh ctx hctx, hctx]
    · rw [h3 ctx]
      simp [hfresh ctx hctx, hctx]
  · exact compilePass_all_compiled src wg ctxs _ fun x hx => by
      rw [h1 x]
      simp [hx]

/-- Witness for C4: contexts `[0, 1, 0]` (context 0 appears twice)
starting from the empty cache. -/
theorem compile_cache_idempotent_witness :
    ((compilePass "src" (fun _ => 1) [0, 1, 0] (emptyCache, [])).2).Nodup ∧
    (0 ∈ (compilePass "src" (fun _ => 1) [0, 1, 0] (emptyCache, [])).2 ↔
      0 ∈ ([0, 1, 0] : List Nat)) ∧
    ((compilePass "src" (fun _ => 1) [0, 1, 0] (emptyCache, [])).1.compiled 0 = true ∧
      (compilePass "src" (fun _ => 1) [0, 1, 0] (emptyCache, [])).1.kernel 0 = some "src" ∧
      (compilePass "src" (fun _ => 1) [0, 1, 0] (emptyCache, [])).1.wgsize 0 = 1) ∧
    compilePass "src" (fun _ => 1) [0, 1, 0]
        ((compilePass "src" (fun _ => 1) [0, 1, 0] (emptyCache, [])).1, [])
      = ((compilePass "src" (fun _ => 1) [0, 1, 0] (emptyCache, [])).1, []) :=
  ⟨(compile_cache_idempotent [0, 1, 0] "src" (fun _ => 1) emptyCache (by decide)).1,
   (compile_cache_idempotent [0, 1, 0] "src" (fun _ => 1) emptyCache (by decide)).2.1 0,
   (compile_cache_idempotent [0, 1, 0] "src" (fun _ => 1) emptyCache (by decide)).2.2.1 0
     (by decide),
   (compile_cache_idempotent [0, 1, 0] "src" (fun _ => 1) emptyCache (by decide)).2.2.2⟩

theorem compilePassF_compiled_mono (src : String) (wg : Nat → Nat) (ok : Nat → Bool) :
    ∀ (ctxs : List Nat) (st : ExCache × List Nat) (cf : Nat) (st' : ExCache × List Nat),
      compilePassF src wg ok ctxs st = .error (cf, st') →
      ∀ x, st.1.compiled x = true → st'.1.compiled x = true := by
  intro ctxs
  induction ctxs with
  | nil =>
      intro st cf st' h
      have h2 : (Except.ok st : Except (Nat × ExCache × List Nat) (ExCache × List Nat))
          = .error (cf, st') := h
      exact absurd h2 (by simp)
  | cons ctx rest ih =>
      intro st cf st' h x hx
      have hstep : compilePassF src wg ok (ctx :: rest) st
          = if st.1.compiled ctx = true then compilePassF src wg ok rest st
            else if ok ctx = true then
              compilePassF src wg ok rest (st.1.store ctx src (wg ctx), st.2 ++ [ctx])
            else .error (ctx, st) := rfl
      rw [hstep] at h
      by_cases hc : st.1.compiled ctx = true
      · rw [if_pos hc] at h
        exact ih st cf st' h x hx
      · rw [if_neg hc] at h
        by_cases hok : ok ctx = true
        · rw [if_pos hok] at h
          refine ih _ cf st' h x ?_
          show (if x = ctx then true else st.1.compiled x) = true
          by_cases hxc : x = ctx
          · rw [if_pos hxc]
          · rw [if_neg hxc]
            exact hx
        · rw [if_neg hok] at h
          injection h with h'
          obtain ⟨hcf, hst⟩ : ctx = cf ∧ st = st' := by simpa using h'
          subst hst
          exact hx

theorem compilePassF_error_not_compiled (src : String) (wg : Nat → Nat) (ok : Nat → Bool) :
    ∀ (ctxs : List Nat) (st : ExCache × List Nat) (cf : Nat) (st' : ExCache × List Nat),
      compilePassF src wg ok ctxs st = .error (cf, st') →
      st'.1.compiled cf = false ∧ st'.1.kernel cf = st.1.kernel cf := by
  intro ctxs
  induction ctxs with
  | nil =>
      intro st cf st' h
      have h2 : (Except.ok st : Except (Nat × ExCache × List Nat) (ExCache × List Nat))
          = .error (cf, st') := h
      exact absurd h2 (by simp)
  | cons ctx rest ih =>
      intro st cf st' h
      have hstep : compilePassF src wg ok (ctx :: rest) st
          = if st.1.compiled ctx = true then compilePassF src wg ok rest st
            else if ok ctx = true then
              compilePassF src wg ok rest (st.1.store ctx src (wg ctx), st.2 ++ [ctx])
            else .error (ctx, st) := rfl
      rw [hstep] at h
      by_cases hc : st.1.compiled ctx = true
      · rw [if_pos hc] at h
        exact ih st cf st' h
      · rw [if_neg hc] at h
        by_cases hok : ok ctx = true
        · rw [if_pos hok] at h
          obtain ⟨hf, hk⟩ := ih _ cf st' h
          have hne : cf ≠ ctx := by
            intro hcontra
            subst hcontra
            have hmono := compilePassF_compiled_mono src wg ok rest _ cf st' h cf
              (by
                show (if cf = cf then true else st.1.compiled cf) = true
                rw [if_pos rfl])
            exact absurd (hmono.symm.trans hf) (by decide)
          refine ⟨hf, ?_⟩
          rw [hk]
          show (if cf = ctx then some src else st.1.kernel cf) = st.1.kernel cf
          rw [if_neg hne]
        · rw [if_neg hok] at h
          injection h with h'
          obtain ⟨hcf, hst⟩ : ctx = cf ∧ st = st' := by simpa using h'
          subst hst
          subst hcf
          exact ⟨by simpa using hc, rfl⟩

/-- Claim C7: if compilation throws for some context (`ok ctx = false`),
the exception propagates with the failing context's cache entry left
not-compiled and its kernel slot untouched — the `compiled` flag is only
stored after a successful build — so a later assignment with the same
key enters the compile branch again (and, once the build succeeds,
stores the kernel) instead of treating a partial entry as compiled. -/
theorem failed_build_leaves_cache_uncompiled (src : String) (wg : Nat → Nat)
    (ok : Nat → Bool) (ctxs : List Nat) (c0 : ExCache) (cf : Nat)
    (st' : ExCache × List Nat)
    (h : compilePassF src wg ok ctxs (c0, []) = .error (cf, st')) :
    st'.1.compiled cf = false ∧
    st'.1.kernel cf = c0.kernel cf ∧
    (∀ (wg2 : Nat → Nat) (ok2 : Nat → Bool), ok2 cf = true →
      compilePassF src wg2 ok2 [cf] st'
        = .ok (st'.1.store cf src (wg2 cf), st'.2 ++ [cf])) := by
  obtain ⟨hf, hk⟩ := compilePassF_error_not_compiled src wg ok ctxs (c0, []) cf st' h
  refine ⟨hf, hk, ?_⟩
  intro wg2 ok2 hok2
  have hstep : compilePassF src wg2 ok2 [cf] st'
      = if st'.1.compiled cf = true then compilePassF src wg2 ok2 [] st'
        else if ok2 cf = true then
          compilePassF src wg2 ok2 [] (st'.1.store cf src (wg2 cf), st'.2 ++ [cf])
        else .error (cf, st') := rfl
  rw [hstep, if_neg (by rw [hf]; simp), if_pos hok2]
  rfl

/-- Witness for C7: a single context `5` whose build always throws,
then a retry whose build succeeds. -/
theorem failed_build_leaves_cache_uncompiled_witness :
    emptyCache.compiled 5 = false ∧
    emptyCache.kernel 5 = emptyCache.kernel 5 ∧
    compilePassF "src" (fun _ => 2) (fun _ => true) [5] (emptyCache, [])
      = .ok (emptyCache.store 5 "src" 2, [] ++ [5]) :=
  ⟨(failed_build_leaves_cache_uncompiled "src" (fun _ => 1) (fun _ => false) [5]
      emptyCache 5 (emptyCache, []) rfl).1,
   (failed_build_leaves_cache_uncompiled "src" (fun _ => 1) (fun _ => false) [5]
      emptyCache 5 (emptyCache, []) rfl).2.1,
   (failed_build_leaves_cache_uncompiled "src" (fun _ => 1) (fun _ => false) [5]
      emptyCache 5 (emptyCache, []) rfl).2.2 (fun _ => 2) (fun _ => true) rfl⟩

/-- Witness for C1 at `n = 100` and weights `[0, 1, 1]` (three devices,
one with measured weight zero). -/
theorem partition_by_vector_perf_invariant_witness :
    (partition_by_vector_perf 100 [0, 1, 1]).length = ([0, 1, 1] : List ℚ).length + 1 ∧
    (partition_by_vector_perf 100 [0, 1, 1]).getD 0 0 = 0 ∧
    (partition_by_vector_perf 100 [0, 1, 1]).getD ([0, 1, 1] : List ℚ).length 0 = 100 ∧
    (∀ i, i < ([0, 1, 1] : List ℚ).length →
      (partition_by_vector_perf 100 [0, 1, 1]).getD i 0 ≤
        (partition_by_vector_perf 100 [0, 1, 1]).getD (i + 1) 0) ∧
    (∀ i, i ≤ ([0, 1, 1] : List ℚ).length →
      (partition_by_vector_perf 100 [0, 1, 1]).getD i 0 ≤ 100) :=
  partition_by_vector_perf_invariant 100 [0, 1, 1] (by decide) (by decide)

end vex
